import Mathlib

/-!
Verification development for the taiHEN patch core.

The development shallowly embeds the data model and algorithms of the
repository: the client-visible error codes (`src/error.h`), the process map
and hook-chain engine (specified in the design document; the translation
units `proc_map.c` and `patches.c` are not part of the source tree, only
their headers `src/patches.h`, `src/patches_map.h`, `src/taihen_internal.h`
and their unit tests `src/tests/*`), and the module-lookup helpers of
`src/module.c`. Machine integers are modelled as `Nat`/`Int` with explicit
reductions modulo 2^32 where wraparound matters.
-/

namespace TaiHEN

/-! ## Error codes (src/error.h) -/

def TAI_SUCCESS : Nat := 0
def TAI_ERROR_SYSTEM : Nat := 0x90010000
def TAI_ERROR_MEMORY : Nat := 0x90010001
def TAI_ERROR_NOT_FOUND : Nat := 0x90010002
def TAI_ERROR_INVALID_ARGS : Nat := 0x90010003
def TAI_ERROR_INVALID_KERNEL_ADDR : Nat := 0x90010004
def TAI_ERROR_PATCH_EXISTS : Nat := 0x90010005

/-- Reinterpretation of a 32-bit unsigned value as a signed 32-bit integer,
as happens when the error macros of `src/error.h` are returned through the
C `int` return type. -/
def toSInt32 (n : Nat) : Int :=
  if n % 2 ^ 32 < 2 ^ 31 then ((n % 2 ^ 32 : Nat) : Int)
  else ((n % 2 ^ 32 : Nat) : Int) - 2 ^ 32

/-- `TAI_SUCCESS` as returned through the C `int` return type. -/
def TAI_SUCCESS_s : Int := toSInt32 TAI_SUCCESS
def TAI_ERROR_SYSTEM_s : Int := toSInt32 TAI_ERROR_SYSTEM
def TAI_ERROR_MEMORY_s : Int := toSInt32 TAI_ERROR_MEMORY
def TAI_ERROR_NOT_FOUND_s : Int := toSInt32 TAI_ERROR_NOT_FOUND
def TAI_ERROR_INVALID_ARGS_s : Int := toSInt32 TAI_ERROR_INVALID_ARGS
def TAI_ERROR_INVALID_KERNEL_ADDR_s : Int := toSInt32 TAI_ERROR_INVALID_KERNEL_ADDR
def TAI_ERROR_PATCH_EXISTS_s : Int := toSInt32 TAI_ERROR_PATCH_EXISTS

/-- The six client-visible error codes, in the order of `src/error.h`. -/
def taiErrorCodes : List Nat :=
  [TAI_ERROR_SYSTEM, TAI_ERROR_MEMORY, TAI_ERROR_NOT_FOUND,
   TAI_ERROR_INVALID_ARGS, TAI_ERROR_INVALID_KERNEL_ADDR,
   TAI_ERROR_PATCH_EXISTS]

/-- C7: `TAI_SUCCESS` equals 0; the six client-visible error codes are
pairwise distinct, nonzero, and each is negative when reinterpreted as a
signed 32-bit integer, so the "zero on success, negative on error"
convention is consistent. -/
theorem error_codes_distinct_negative :
    TAI_SUCCESS = 0
    ∧ taiErrorCodes.Nodup
    ∧ (∀ c ∈ taiErrorCodes, c ≠ 0)
    ∧ (∀ c ∈ taiErrorCodes, toSInt32 c < 0) := by
  refine ⟨rfl, ?_, ?_, ?_⟩ <;> decide

/-! ## Process map

Modelled from the spec: the translation unit `proc_map.c` implementing the
Process Map is not in the source tree; only its data structures
(`src/patches_map.h`, `src/taihen_internal.h`) and its unit tests
(`src/tests/test_proc_map.c`) are. The bucket array sharded by
`H(pid) mod nbuckets` is abstracted to a single association list of Process
Entries, which is the data content the buckets implement; patch lists are
kept sorted by address, as `src/tests/test_proc_map.c` asserts for the list
returned by `proc_map_remove_all_pid`. -/

/-- The two patch kinds of the spec's data model (the `hooks`/`inject`
alternatives of the body union in `struct _tai_patch`). -/
inductive PatchKind
  | hooks
  | inject
deriving DecidableEq, Repr

/-- Modelled from the spec: a patch record (`struct _tai_patch` in
`src/taihen_internal.h`), claiming the half-open range
`[addr, addr + size)` of process `pid`; the body payload is irrelevant to
the map and is reduced to its kind tag. -/
structure Patch where
  pid : Nat
  addr : Nat
  size : Nat
  kind : PatchKind
deriving DecidableEq, Repr

/-- Modelled from the spec: a Process Entry (`struct _tai_proc`),
holding one pid's patch list. -/
structure Proc where
  pid : Nat
  patches : List Patch
deriving DecidableEq, Repr

/-- Modelled from the spec: the Process Map content, an association list of
Process Entries (the bucket array of `tai_proc_map_t` abstracted). -/
abbrev ProcMap := List Proc

/-- Range intersection test used by the insert scan: the half-open ranges
`[p.addr, p.addr + p.size)` and `[q.addr, q.addr + q.size)` intersect. -/
def overlaps (p q : Patch) : Bool :=
  decide (p.addr < q.addr + q.size ∧ q.addr < p.addr + p.size)

/-- Disjointness of the half-open ranges of two patches. -/
def disjointRange (p q : Patch) : Prop :=
  p.addr + p.size ≤ q.addr ∨ q.addr + q.size ≤ p.addr

instance (p q : Patch) : Decidable (disjointRange p q) :=
  inferInstanceAs (Decidable (_ ∨ _))

/-- Insertion into an address-sorted patch list. -/
def insertSorted (p : Patch) : List Patch → List Patch
  | [] => [p]
  | q :: rest => if p.addr < q.addr then p :: q :: rest else q :: insertSorted p rest

/-- Linear scan of a patch list for the first patch whose range intersects
the candidate's. -/
def findOverlap (p : Patch) : List Patch → Option Patch
  | [] => none
  | q :: rest => if overlaps p q then some q else findOverlap p rest

/-- Outcome of `proc_map_try_insert`: the candidate was linked in, an
existing compatible patch is returned for sharing, or the insert fails
(`TAI_ERROR_PATCH_EXISTS`). -/
inductive InsertResult
  | inserted
  | existing (q : Patch)
  | patchExists
deriving DecidableEq, Repr

/-- Modelled from the spec: `proc_map_try_insert` of the missing
`proc_map.c`. Locate the Process Entry for `p.pid` (creating it if
absent) and scan its patch list for a range intersecting the candidate's:
no intersection links the candidate in; an intersecting patch with
identical `(pid, addr, size)` and compatible kind (exact-match sharing
applies only to `hooks` patches) is returned as `existing`; any other
intersection fails, the map unchanged. -/
def proc_map_try_insert : ProcMap → Patch → InsertResult × ProcMap
  | [], p => (.inserted, [⟨p.pid, [p]⟩])
  | e :: rest, p =>
    if e.pid = p.pid then
      match findOverlap p e.patches with
      | none => (.inserted, ⟨e.pid, insertSorted p e.patches⟩ :: rest)
      | some q =>
        if p.kind = .hooks ∧ q.kind = .hooks ∧ q.addr = p.addr ∧ q.size = p.size then
          (.existing q, e :: rest)
        else
          (.patchExists, e :: rest)
    else
      let r := proc_map_try_insert rest p
      (r.1, e :: r.2)

/-- Unlink the first patch structurally equal to `p` (pointer identity in
the C); reports whether one was found. -/
def removePatch (p : Patch) : List Patch → Bool × List Patch
  | [] => (false, [])
  | q :: rest =>
    if q = p then (true, rest)
    else
      let r := removePatch p rest
      (r.1, q :: r.2)

/-- Modelled from the spec: `proc_map_remove` of the missing `proc_map.c`.
Unlink a specific patch; a Process Entry whose list becomes empty is
unlinked and freed; returns whether the patch was found. -/
def proc_map_remove : ProcMap → Patch → Bool × ProcMap
  | [], _ => (false, [])
  | e :: rest, p =>
    if e.pid = p.pid then
      let r := removePatch p e.patches
      if r.1 then
        if r.2.isEmpty then (true, rest) else (true, ⟨e.pid, r.2⟩ :: rest)
      else (false, e :: rest)
    else
      let r := proc_map_remove rest p
      (r.1, e :: r.2)

/-- Modelled from the spec: `proc_map_remove_all_pid` of the missing
`proc_map.c`. Unlink the Process Entry for `pid` and return its entire
patch list; if no entry exists, return the empty list. -/
def proc_map_remove_all_pid : ProcMap → Nat → List Patch × ProcMap
  | [], _ => ([], [])
  | e :: rest, pid =>
    if e.pid = pid then (e.patches, rest)
    else
      let r := proc_map_remove_all_pid rest pid
      (r.1, e :: r.2)

/-- The patch list currently held for `pid` (empty if no entry). -/
def patchesOf : ProcMap → Nat → List Patch
  | [], _ => []
  | e :: rest, pid => if e.pid = pid then e.patches else patchesOf rest pid

/-- Well-formedness of one Process Entry: its patches are pairwise
range-disjoint and all carry the entry's pid. -/
def entryWF (e : Proc) : Prop :=
  e.patches.Pairwise disjointRange ∧ ∀ p ∈ e.patches, p.pid = e.pid

instance (e : Proc) : Decidable (entryWF e) :=
  inferInstanceAs (Decidable (_ ∧ _))

/-- Well-formedness of the Process Map: entry pids are distinct and every
entry is well-formed. -/
def mapWF (m : ProcMap) : Prop :=
  (m.map Proc.pid).Nodup ∧ ∀ e ∈ m, entryWF e

instance (m : ProcMap) : Decidable (mapWF m) :=
  inferInstanceAs (Decidable (_ ∧ _))

/-- The per-pid disjointness invariant as the spec states it. -/
def disjointInv (m : ProcMap) : Prop :=
  ∀ pid, (patchesOf m pid).Pairwise disjointRange

/-! ### Process map lemmas -/

theorem overlaps_false_iff (p q : Patch) :
    overlaps p q = false ↔ disjointRange p q := by
  unfold overlaps disjointRange
  rw [decide_eq_false_iff_not]
  omega

theorem overlaps_true_iff (p q : Patch) :
    overlaps p q = true ↔ ¬ disjointRange p q := by
  unfold overlaps disjointRange
  rw [decide_eq_true_eq]
  omega

theorem disjointRange_symm {p q : Patch} (h : disjointRange p q) :
    disjointRange q p := h.symm

theorem mem_insertSorted (p x : Patch) (l : List Patch) :
    x ∈ insertSorted p l ↔ x = p ∨ x ∈ l := by
  induction l with
  | nil => simp [insertSorted]
  | cons q rest ih =>
    by_cases h : p.addr < q.addr
    · simp [insertSorted, h]
    · simp only [insertSorted, if_neg h, List.mem_cons, ih]
      tauto

theorem pairwise_insertSorted {p : Patch} {l : List Patch}
    (hl : l.Pairwise disjointRange) (hp : ∀ q ∈ l, disjointRange p q) :
    (insertSorted p l).Pairwise disjointRange := by
  induction l with
  | nil => simp [insertSorted]
  | cons q rest ih =>
    rcases List.pairwise_cons.1 hl with ⟨hq, hrest⟩
    by_cases h : p.addr < q.addr
    · simp only [insertSorted, if_pos h]
      refine List.pairwise_cons.2 ⟨?_, hl⟩
      intro x hx
      exact hp x hx
    · simp only [insertSorted, if_neg h]
      refine List.pairwise_cons.2 ⟨?_, ih hrest (fun x hx => hp x (List.mem_cons_of_mem _ hx))⟩
      intro x hx
      rcases (mem_insertSorted p x rest).1 hx with rfl | hx'
      · exact disjointRange_symm (hp q (List.mem_cons_self _ _))
      · exact hq x hx'

theorem findOverlap_eq_none_iff (p : Patch) (l : List Patch) :
    findOverlap p l = none ↔ ∀ q ∈ l, overlaps p q = false := by
  induction l with
  | nil => simp [findOverlap]
  | cons q rest ih =>
    by_cases h : overlaps p q
    · simp [findOverlap, h]
    · simp only [findOverlap, Bool.not_eq_true] at h ⊢
      rw [if_neg (by simp [h]), ih]
      simp [h]

theorem findOverlap_some_mem {p q : Patch} {l : List Patch}
    (h : findOverlap p l = some q) : q ∈ l ∧ overlaps p q = true := by
  induction l with
  | nil => simp [findOverlap] at h
  | cons r rest ih =>
    by_cases hr : overlaps p r
    · simp only [findOverlap, if_pos hr, Option.some.injEq] at h
      subst h
      exact ⟨List.mem_cons_self _ _, hr⟩
    · simp only [findOverlap, if_neg hr] at h
      rcases ih h with ⟨hm, ho⟩
      exact ⟨List.mem_cons_of_mem _ hm, ho⟩

theorem findOverlap_exact {p q : Patch} {l : List Patch}
    (hl : l.Pairwise disjointRange) (hq : q ∈ l) (ho : overlaps p q = true)
    (ha : q.addr = p.addr) (hs : q.size = p.size) :
    findOverlap p l = some q := by
  induction l with
  | nil => simp at hq
  | cons r rest ih =>
    rcases List.pairwise_cons.1 hl with ⟨hr, hrest⟩
    by_cases hov : overlaps p r
    · simp only [findOverlap, if_pos hov]
      rcases List.mem_cons.1 hq with rfl | hmem
      · rfl
      · exfalso
        have hd : disjointRange r q := hr q hmem
        have h1 := (overlaps_true_iff p r).1 hov
        have h2 := (overlaps_true_iff p q).1 ho
        unfold disjointRange at hd h1 h2
        omega
    · simp only [findOverlap, if_neg hov]
      rcases List.mem_cons.1 hq with rfl | hmem
      · exact absurd ho (by simpa using hov)
      · exact ih hrest hmem

theorem tryInsert_pids {m : ProcMap} {p : Patch} :
    ∀ x ∈ (proc_map_try_insert m p).2.map Proc.pid,
      x ∈ m.map Proc.pid ∨ x = p.pid := by
  induction m with
  | nil => simp [proc_map_try_insert]
  | cons e rest ih =>
    by_cases h : e.pid = p.pid
    · simp only [proc_map_try_insert, if_pos h]
      cases hf : findOverlap p e.patches with
      | none =>
        intro x hx
        simp only [List.map_cons, List.mem_cons] at hx ⊢
        exact Or.inl hx
      | some q =>
        by_cases hc : p.kind = .hooks ∧ q.kind = .hooks ∧ q.addr = p.addr ∧ q.size = p.size
        · simp only [if_pos hc]
          exact fun x hx => Or.inl hx
        · simp only [if_neg hc]
          exact fun x hx => Or.inl hx
    · simp only [proc_map_try_insert, if_neg h, List.map_cons, List.mem_cons]
      intro x hx
      rcases hx with rfl | hx'
      · exact Or.inl (Or.inl rfl)
      · rcases ih x hx' with hm | hp
        · exact Or.inl (Or.inr hm)
        · exact Or.inr hp

theorem tryInsert_WF {m : ProcMap} (p : Patch) (h : mapWF m) :
    mapWF (proc_map_try_insert m p).2 := by
  induction m with
  | nil =>
    refine ⟨by simp [proc_map_try_insert], ?_⟩
    intro e he
    simp only [proc_map_try_insert, List.mem_singleton] at he
    subst he
    exact ⟨List.pairwise_singleton _ _, by simp⟩
  | cons e rest ih =>
    rcases h with ⟨hnd, hwf⟩
    simp only [List.map_cons, List.nodup_cons] at hnd
    by_cases hpid : e.pid = p.pid
    · simp only [proc_map_try_insert, if_pos hpid]
      cases hf : findOverlap p e.patches with
      | none =>
        have hew := hwf e (List.mem_cons_self _ _)
        refine ⟨?_, ?_⟩
        · simpa using hnd
        · intro e' he'
          rcases List.mem_cons.1 he' with rfl | hmem
          · refine ⟨?_, ?_⟩
            · refine pairwise_insertSorted hew.1 ?_
              intro q hq
              have := ((findOverlap_eq_none_iff p e.patches).1 hf) q hq
              exact (overlaps_false_iff p q).1 this
            · intro x hx
              rcases (mem_insertSorted p x e.patches).1 hx with rfl | hx'
              · exact hpid.symm
              · exact hew.2 x hx'
          · exact hwf e' (List.mem_cons_of_mem _ hmem)
      | some q =>
        by_cases hc : p.kind = .hooks ∧ q.kind = .hooks ∧ q.addr = p.addr ∧ q.size = p.size
        · simp only [if_pos hc]
          exact ⟨by simpa using hnd, hwf⟩
        · simp only [if_neg hc]
          exact ⟨by simpa using hnd, hwf⟩
    · simp only [proc_map_try_insert, if_neg hpid]
      have hrest : mapWF rest := ⟨hnd.2, fun e' he' => hwf e' (List.mem_cons_of_mem _ he')⟩
      have := ih hrest
      refine ⟨?_, ?_⟩
      · simp only [List.map_cons, List.nodup_cons]
        refine ⟨?_, this.1⟩
        intro hx
        rcases tryInsert_pids e.pid hx with hm | hp
        · exact hnd.1 hm
        · exact hpid hp
      · intro e' he'
        rcases List.mem_cons.1 he' with rfl | hmem
        · exact hwf e' (List.mem_cons_self _ _)
        · exact this.2 e' hmem

theorem removePatch_sublist (p : Patch) (l : List Patch) :
    (removePatch p l).2.Sublist l := by
  induction l with
  | nil => simp [removePatch]
  | cons q rest ih =>
    by_cases h : q = p
    · simp only [removePatch, if_pos h]
      exact List.Sublist.cons q (List.Sublist.refl rest)
    · simpa [removePatch, h] using List.Sublist.cons₂ q ih

theorem remove_pids {m : ProcMap} {p : Patch} :
    ∀ x ∈ (proc_map_remove m p).2.map Proc.pid, x ∈ m.map Proc.pid := by
  induction m with
  | nil => simp [proc_map_remove]
  | cons e rest ih =>
    by_cases h : e.pid = p.pid
    · simp only [proc_map_remove, if_pos h]
      by_cases hfound : (removePatch p e.patches).1
      · by_cases hemp : (removePatch p e.patches).2.isEmpty
        · simp only [if_pos hfound, if_pos hemp]
          intro x hx
          exact List.mem_cons_of_mem _ hx
        · simp only [if_pos hfound, if_neg hemp, List.map_cons, List.mem_cons]
          intro x hx
          rcases hx with rfl | hx'
          · exact Or.inl rfl
          · exact Or.inr hx'
      · simp only [if_neg hfound]
        intro x hx
        exact hx
    · simp only [proc_map_remove, if_neg h, List.map_cons, List.mem_cons]
      intro x hx
      rcases hx with rfl | hx'
      · exact Or.inl rfl
      · exact Or.inr (ih x hx')

theorem remove_WF {m : ProcMap} (p : Patch) (h : mapWF m) :
    mapWF (proc_map_remove m p).2 := by
  induction m with
  | nil => exact h
  | cons e rest ih =>
    rcases h with ⟨hnd, hwf⟩
    simp only [List.map_cons, List.nodup_cons] at hnd
    have hrest : mapWF rest := ⟨hnd.2, fun e' he' => hwf e' (List.mem_cons_of_mem _ he')⟩
    by_cases hpid : e.pid = p.pid
    · simp only [proc_map_remove, if_pos hpid]
      by_cases hfound : (removePatch p e.patches).1
      · by_cases hemp : (removePatch p e.patches).2.isEmpty
        · simp only [if_pos hfound, if_pos hemp]
          exact hrest
        · simp only [if_pos hfound, if_neg hemp]
          have hew := hwf e (List.mem_cons_self _ _)
          refine ⟨by simpa using hnd, ?_⟩
          intro e' he'
          rcases List.mem_cons.1 he' with rfl | hmem
          · refine ⟨hew.1.sublist (removePatch_sublist p e.patches), ?_⟩
            intro x hx
            exact hew.2 x ((removePatch_sublist p e.patches).subset hx)
          · exact hrest.2 e' hmem
      · simp only [if_neg hfound]
        exact ⟨by simpa using hnd, hwf⟩
    · simp only [proc_map_remove, if_neg hpid]
      have := ih hrest
      refine ⟨?_, ?_⟩
      · simp only [List.map_cons, List.nodup_cons]
        exact ⟨fun hx => hnd.1 (remove_pids _ hx), this.1⟩
      · intro e' he'
        rcases List.mem_cons.1 he' with rfl | hmem
        · exact hwf e' (List.mem_cons_self _ _)
        · exact this.2 e' hmem

theorem removeAll_pids {m : ProcMap} {pid : Nat} :
    ∀ x ∈ (proc_map_remove_all_pid m pid).2.map Proc.pid, x ∈ m.map Proc.pid := by
  induction m with
  | nil => simp [proc_map_remove_all_pid]
  | cons e rest ih =>
    by_cases h : e.pid = pid
    · simp only [proc_map_remove_all_pid, if_pos h]
      intro x hx
      exact List.mem_cons_of_mem _ hx
    · simp only [proc_map_remove_all_pid, if_neg h, List.map_cons, List.mem_cons]
      intro x hx
      rcases hx with rfl | hx'
      · exact Or.inl rfl
      · exact Or.inr (ih x hx')

theorem removeAll_WF {m : ProcMap} (pid : Nat) (h : mapWF m) :
    mapWF (proc_map_remove_all_pid m pid).2 := by
  induction m with
  | nil => exact h
  | cons e rest ih =>
    rcases h with ⟨hnd, hwf⟩
    simp only [List.map_cons, List.nodup_cons] at hnd
    have hrest : mapWF rest := ⟨hnd.2, fun e' he' => hwf e' (List.mem_cons_of_mem _ he')⟩
    by_cases hpid : e.pid = pid
    · simp only [proc_map_remove_all_pid, if_pos hpid]
      exact hrest
    · simp only [proc_map_remove_all_pid, if_neg hpid]
      have := ih hrest
      refine ⟨?_, ?_⟩
      · simp only [List.map_cons, List.nodup_cons]
        exact ⟨fun hx => hnd.1 (removeAll_pids _ hx), this.1⟩
      · intro e' he'
        rcases List.mem_cons.1 he' with rfl | hmem
        · exact hwf e' (List.mem_cons_self _ _)
        · exact this.2 e' hmem

theorem wf_disjointInv {m : ProcMap} (h : mapWF m) : disjointInv m := by
  intro pid
  induction m with
  | nil => simp [patchesOf]
  | cons e rest ih =>
    rcases h with ⟨hnd, hwf⟩
    simp only [List.map_cons, List.nodup_cons] at hnd
    by_cases hpid : e.pid = pid
    · simpa [patchesOf, hpid] using (hwf e (List.mem_cons_self _ _)).1
    · simp only [patchesOf, if_neg hpid]
      exact ih ⟨hnd.2, fun e' he' => hwf e' (List.mem_cons_of_mem _ he')⟩

theorem tryInsert_exact {m : ProcMap} {p q : Patch} (h : mapWF m)
    (hq : q ∈ patchesOf m p.pid) (hsz : 0 < p.size)
    (hpk : p.kind = .hooks) (hqk : q.kind = .hooks)
    (ha : q.addr = p.addr) (hs : q.size = p.size) :
    proc_map_try_insert m p = (.existing q, m) := by
  have ho : overlaps p q = true := by
    rw [overlaps_true_iff]
    unfold disjointRange
    omega
  induction m with
  | nil => simp [patchesOf] at hq
  | cons e rest ih =>
    rcases h with ⟨hnd, hwf⟩
    simp only [List.map_cons, List.nodup_cons] at hnd
    by_cases hpid : e.pid = p.pid
    · simp only [patchesOf, if_pos hpid] at hq
      have hfind : findOverlap p e.patches = some q :=
        findOverlap_exact (hwf e (List.mem_cons_self _ _)).1 hq ho ha hs
      simp [proc_map_try_insert, if_pos hpid, hfind, hpk, hqk, ha, hs]
    · simp only [patchesOf, if_neg hpid] at hq
      have hrest : mapWF rest := ⟨hnd.2, fun e' he' => hwf e' (List.mem_cons_of_mem _ he')⟩
      have := ih hrest hq
      simp [proc_map_try_insert, if_neg hpid, this]

/-- C1: the empty map is well-formed, every public Process Map operation
preserves well-formedness (hence any two distinct patches in any pid's
patch list have disjoint half-open ranges between public operations), and
the sole insertion-time exception is that a hooks request exactly matching
an existing hooks patch shares that patch, leaving the map unchanged. -/
theorem proc_map_disjoint_invariant :
    mapWF ([] : ProcMap)
    ∧ (∀ m, mapWF m → disjointInv m)
    ∧ (∀ m p, mapWF m → mapWF (proc_map_try_insert m p).2)
    ∧ (∀ m p, mapWF m → mapWF (proc_map_remove m p).2)
    ∧ (∀ m pid, mapWF m → mapWF (proc_map_remove_all_pid m pid).2)
    ∧ (∀ m p q, mapWF m → q ∈ patchesOf m p.pid → 0 < p.size →
        p.kind = .hooks → q.kind = .hooks → q.addr = p.addr → q.size = p.size →
        proc_map_try_insert m p = (.existing q, m)) :=
  ⟨⟨List.nodup_nil, by simp⟩,
   fun _ h => wf_disjointInv h,
   fun _ p h => tryInsert_WF p h,
   fun _ p h => remove_WF p h,
   fun _ pid h => removeAll_WF pid h,
   fun _ _ _ h hq hsz hpk hqk ha hs => tryInsert_exact h hq hsz hpk hqk ha hs⟩

/-- Witness for C1 at a concrete map: a well-formed one-entry map, a
non-overlapping insert, and an exact-match hooks insert that shares. -/
theorem proc_map_disjoint_invariant_witness :
    mapWF [⟨1, [⟨1, 0x100, 16, .hooks⟩]⟩]
    ∧ mapWF (proc_map_try_insert [⟨1, [⟨1, 0x100, 16, .hooks⟩]⟩] ⟨1, 0x200, 16, .hooks⟩).2
    ∧ proc_map_try_insert [⟨1, [⟨1, 0x100, 16, .hooks⟩]⟩] ⟨1, 0x100, 16, .hooks⟩
      = (.existing ⟨1, 0x100, 16, .hooks⟩, [⟨1, [⟨1, 0x100, 16, .hooks⟩]⟩]) :=
  ⟨by decide,
   proc_map_disjoint_invariant.2.2.1 _ ⟨1, 0x200, 16, .hooks⟩ (by decide),
   proc_map_disjoint_invariant.2.2.2.2.2 _ ⟨1, 0x100, 16, .hooks⟩ _ (by decide) (by decide)
     (by decide) rfl rfl rfl rfl⟩

/-- C2: `proc_map_try_insert` has exactly the three outcomes the spec
describes: a candidate overlapping no patch of its pid is linked in and
reported `inserted`; an existing patch with identical `(pid, addr, size)`
and compatible (hooks) kind is returned as `existing` with the map
unchanged; a partial overlap or incompatible kind fails with
`patchExists` (`TAI_ERROR_PATCH_EXISTS`) and the map unchanged. -/
theorem try_insert_trichotomy (m : ProcMap) (p : Patch) (hwf : mapWF m) :
    ((∀ q ∈ patchesOf m p.pid, overlaps p q = false) →
      (proc_map_try_insert m p).1 = .inserted
      ∧ p ∈ patchesOf (proc_map_try_insert m p).2 p.pid)
    ∧ (∀ q ∈ patchesOf m p.pid,
        0 < p.size → p.kind = .hooks → q.kind = .hooks → q.addr = p.addr → q.size = p.size →
        proc_map_try_insert m p = (.existing q, m))
    ∧ ((∃ q ∈ patchesOf m p.pid, overlaps p q = true) →
        (¬ ∃ q ∈ patchesOf m p.pid, p.kind = .hooks ∧ q.kind = .hooks ∧
            q.addr = p.addr ∧ q.size = p.size) →
        proc_map_try_insert m p = (.patchExists, m)) := by
  refine ⟨?_, fun q hq hsz hpk hqk ha hs => tryInsert_exact hwf hq hsz hpk hqk ha hs, ?_⟩
  · induction m with
    | nil =>
      intro _
      exact ⟨rfl, by simp [proc_map_try_insert, patchesOf]⟩
    | cons e rest ih =>
      rcases hwf with ⟨hnd, hwfe⟩
      simp only [List.map_cons, List.nodup_cons] at hnd
      intro hno
      by_cases hpid : e.pid = p.pid
      · simp only [patchesOf, if_pos hpid] at hno
        have hf : findOverlap p e.patches = none := (findOverlap_eq_none_iff p e.patches).2 hno
        simp only [proc_map_try_insert, if_pos hpid, hf]
        exact ⟨by trivial, by simp [patchesOf, hpid, mem_insertSorted]⟩
      · simp only [patchesOf, if_neg hpid] at hno
        have hrest : mapWF rest := ⟨hnd.2, fun e' he' => hwfe e' (List.mem_cons_of_mem _ he')⟩
        have := ih hrest hno
        simp only [proc_map_try_insert, if_neg hpid]
        exact ⟨this.1, by simpa [patchesOf, hpid] using this.2⟩
  · induction m with
    | nil =>
      intro hex _
      simp [patchesOf] at hex
    | cons e rest ih =>
      rcases hwf with ⟨hnd, hwfe⟩
      simp only [List.map_cons, List.nodup_cons] at hnd
      intro hex hnex
      by_cases hpid : e.pid = p.pid
      · simp only [patchesOf, if_pos hpid] at hex hnex
        cases hf : findOverlap p e.patches with
        | none =>
          exfalso
          rcases hex with ⟨q, hq, ho⟩
          have := (findOverlap_eq_none_iff p e.patches).1 hf q hq
          rw [this] at ho
          exact Bool.false_ne_true ho
        | some q =>
          have hqm := findOverlap_some_mem hf
          by_cases hc : p.kind = .hooks ∧ q.kind = .hooks ∧ q.addr = p.addr ∧ q.size = p.size
          · exact absurd ⟨q, hqm.1, hc⟩ hnex
          · simp [proc_map_try_insert, if_pos hpid, hf, if_neg hc]
      · simp only [patchesOf, if_neg hpid] at hex hnex
        have hrest : mapWF rest := ⟨hnd.2, fun e' he' => hwfe e' (List.mem_cons_of_mem _ he')⟩
        have := ih hrest hex hnex
        simp [proc_map_try_insert, if_neg hpid, this]

/-- Witness for C2: a fresh range is inserted; a half-overlapping range is
rejected with the map unchanged. -/
theorem try_insert_trichotomy_witness :
    (proc_map_try_insert [⟨2, [⟨2, 0x300, 16, .hooks⟩]⟩] ⟨2, 0x400, 16, .inject⟩).1
      = .inserted
    ∧ proc_map_try_insert [⟨2, [⟨2, 0x300, 16, .hooks⟩]⟩] ⟨2, 0x308, 16, .inject⟩
      = (.patchExists, [⟨2, [⟨2, 0x300, 16, .hooks⟩]⟩]) :=
  ⟨((try_insert_trichotomy _ ⟨2, 0x400, 16, .inject⟩ (by decide)).1 (by decide)).1,
   (try_insert_trichotomy _ ⟨2, 0x308, 16, .inject⟩ (by decide)).2.2 (by decide) (by decide)⟩

theorem patchesOf_eq_nil_of_absent {m : ProcMap} {pid : Nat}
    (h : ∀ e ∈ m, e.pid ≠ pid) : patchesOf m pid = [] := by
  induction m with
  | nil => rfl
  | cons e rest ih =>
    have hne : e.pid ≠ pid := h e (List.mem_cons_self _ _)
    simp only [patchesOf, if_neg hne]
    exact ih (fun e' he' => h e' (List.mem_cons_of_mem _ he'))

/-- C3: `proc_map_remove_all_pid` returns exactly the pid's current patch
list (hence a list whose length is the live patch count at the moment of
the call), afterwards no entry for that pid remains, and when no entry
exists it returns the empty list. -/
theorem remove_all_pid_spec (m : ProcMap) (pid : Nat) (h : mapWF m) :
    (proc_map_remove_all_pid m pid).1 = patchesOf m pid
    ∧ (proc_map_remove_all_pid m pid).1.length = (patchesOf m pid).length
    ∧ (∀ e ∈ (proc_map_remove_all_pid m pid).2, e.pid ≠ pid)
    ∧ patchesOf (proc_map_remove_all_pid m pid).2 pid = []
    ∧ ((∀ e ∈ m, e.pid ≠ pid) → (proc_map_remove_all_pid m pid).1 = []) := by
  induction m with
  | nil => simp [proc_map_remove_all_pid, patchesOf]
  | cons e rest ih =>
    rcases h with ⟨hnd, hwfe⟩
    simp only [List.map_cons, List.nodup_cons] at hnd
    have hrest : mapWF rest := ⟨hnd.2, fun e' he' => hwfe e' (List.mem_cons_of_mem _ he')⟩
    by_cases hpid : e.pid = pid
    · simp only [proc_map_remove_all_pid, if_pos hpid, patchesOf]
      have habs : ∀ e' ∈ rest, e'.pid ≠ pid := by
        intro e' he' hcon
        have heq : e'.pid = e.pid := hcon.trans hpid.symm
        exact hnd.1 (heq ▸ List.mem_map_of_mem Proc.pid he')
      refine ⟨by trivial, by trivial, habs, patchesOf_eq_nil_of_absent habs, ?_⟩
      intro hall
      exact absurd hpid (hall e (List.mem_cons_self _ _))
    · simp only [proc_map_remove_all_pid, if_neg hpid, patchesOf]
      rcases ih hrest with ⟨h1, h2, h3, h4, h5⟩
      refine ⟨h1, h2, ?_, h4, ?_⟩
      · intro e' he'
        rcases List.mem_cons.1 he' with rfl | hmem
        · exact hpid
        · exact h3 e' hmem
      · intro hall
        exact h5 (fun e' he' => hall e' (List.mem_cons_of_mem _ he'))

/-- Witness for C3 at a concrete two-entry map. -/
theorem remove_all_pid_spec_witness :
    proc_map_remove_all_pid
        [⟨3, [⟨3, 0x100, 16, .hooks⟩, ⟨3, 0x200, 16, .inject⟩]⟩, ⟨4, [⟨4, 0x100, 16, .hooks⟩]⟩] 3
      = ([⟨3, 0x100, 16, .hooks⟩, ⟨3, 0x200, 16, .inject⟩], [⟨4, [⟨4, 0x100, 16, .hooks⟩]⟩])
    ∧ (proc_map_remove_all_pid
        [⟨3, [⟨3, 0x100, 16, .hooks⟩, ⟨3, 0x200, 16, .inject⟩]⟩, ⟨4, [⟨4, 0x100, 16, .hooks⟩]⟩] 3).1.length
      = 2 := by
  have h := remove_all_pid_spec
    [⟨3, [⟨3, 0x100, 16, .hooks⟩, ⟨3, 0x200, 16, .inject⟩]⟩, ⟨4, [⟨4, 0x100, 16, .hooks⟩]⟩] 3
    (by decide)
  exact ⟨by decide, h.2.1.trans (by decide)⟩

/-! ## Hook chain

Modelled from the spec: the translation unit `patches.c` implementing the
hook-chain engine is not in the source tree; only its data structures
(`struct _tai_hook`, `struct _tai_hook_list` in `src/taihen_internal.h`),
its interface (`src/patches.h`) and its unit tests
(`src/tests/test_patches.c`) are. Hook records are identified by their
replacement function; the singly linked `next` chain from `head` to the
tail sentinel is modelled as a list, head first; the tail sentinel's
execution of the saved original instructions is the terminal dispatch
event. -/

/-- Identifier of a client replacement routine (the `func` field of
`struct _tai_hook`). -/
abbrev Func := Nat

/-- `FUNC_SAVE_SIZE` from `src/taihen_internal.h`: the branch-instruction
footprint, which is also the size of every hooks patch. -/
def FUNC_SAVE_SIZE : Nat := 16

/-- Modelled from the spec: a hook chain (`struct _tai_hook_list`),
holding the saved original code and the hook records reachable from
`head`, head first; the empty list is `head == tail sentinel`. -/
structure HookChain where
  origcode : List Nat
  hooks : List Func
deriving DecidableEq, Repr

/-- Modelled from the spec: `hook_add` inserts the new hook record at the
head of the chain, so the newest hook runs first. -/
def hook_add (c : HookChain) (f : Func) : HookChain :=
  { c with hooks := f :: c.hooks }

/-- One step of the dispatch trace: a hook's replacement routine runs, or
the tail sentinel executes the saved original instructions. -/
inductive DispatchEv
  | call (f : Func)
  | execOrig (code : List Nat)
deriving DecidableEq, Repr

/-- Modelled from the spec: the dispatch of an installed branch. Control
enters at the chain head; each hook that calls its next link transfers
control to the following record; the tail sentinel executes the saved
original instructions. -/
def dispatch : List Func → List Nat → List DispatchEv
  | [], orig => [.execOrig orig]
  | f :: next, orig => .call f :: dispatch next orig

/-- A chain freshly installed at a target whose original instructions are
`orig`, after the hooks `l` were added in order. -/
def buildChain (orig : List Nat) (l : List Func) : HookChain :=
  l.foldl hook_add { origcode := orig, hooks := [] }

theorem buildChain_eq (orig : List Nat) (l : List Func) :
    buildChain orig l = { origcode := orig, hooks := l.reverse } := by
  suffices h : ∀ (c : HookChain) (l : List Func),
      l.foldl hook_add c = { origcode := c.origcode, hooks := l.reverse ++ c.hooks } by
    simpa using h { origcode := orig, hooks := [] } l
  intro c l
  induction l generalizing c with
  | nil => simp
  | cons f rest ih => simp [hook_add, ih]

theorem dispatch_eq (l : List Func) (orig : List Nat) :
    dispatch l orig = l.map DispatchEv.call ++ [.execOrig orig] := by
  induction l with
  | nil => rfl
  | cons f rest ih => simp [dispatch, ih]

/-- C4: for hooks h1…hN added in order, dispatching the installed branch
runs the most recently added hook first, each hook's next link is the
previously added hook, and the chain terminates at the tail sentinel
executing the saved original instructions: the dispatch trace is the
reversed addition order followed by the original code. -/
theorem chain_dispatch_order (orig : List Nat) (l : List Func) (h : Func) :
    dispatch (buildChain orig l).hooks (buildChain orig l).origcode
      = (l.reverse.map DispatchEv.call) ++ [.execOrig orig]
    ∧ (dispatch (buildChain orig (l ++ [h])).hooks (buildChain orig (l ++ [h])).origcode).head?
      = some (.call h)
    ∧ (dispatch (buildChain orig l).hooks (buildChain orig l).origcode).getLast?
      = some (.execOrig orig) := by
  refine ⟨?_, ?_, ?_⟩
  · rw [buildChain_eq, dispatch_eq]
  · rw [buildChain_eq, dispatch_eq]
    simp
  · rw [buildChain_eq, dispatch_eq]
    simp

/-! ## Patch manager validation (hook_func_abs)

Modelled from the spec: `tai_hook_func_abs` (the `taiHookFunctionAbs`
entry) of the missing `patches.c`: it validates its arguments (zero
`target_addr` or null replacement fail with `TAI_ERROR_INVALID_ARGS`),
builds a hooks candidate of size `FUNC_SAVE_SIZE`, admits it through
`proc_map_try_insert`, and initialises or shares the hook chain. -/

/-- Global patcher state: the Process Map plus the hook chain of each
hooks patch, keyed by `(pid, addr)`. -/
structure TaiState where
  map : ProcMap
  chains : List (Nat × Nat × HookChain)
deriving DecidableEq, Repr

/-- Modelled from the spec: `tai_hook_func_abs`. `readMem` is the
substrate's save of the branch footprint at the target (spec section 6);
a null replacement is `none`. Returns the C `int` status and the new
state. -/
def hook_func_abs (s : TaiState) (pid target_addr : Nat) (repl : Option Func)
    (readMem : Nat → List Nat) : Int × TaiState :=
  match repl with
  | none => (TAI_ERROR_INVALID_ARGS_s, s)
  | some f =>
    if target_addr = 0 then (TAI_ERROR_INVALID_ARGS_s, s)
    else
      let cand : Patch := ⟨pid, target_addr, FUNC_SAVE_SIZE, .hooks⟩
      match proc_map_try_insert s.map cand with
      | (.inserted, m') =>
        (TAI_SUCCESS_s,
         ⟨m', (pid, target_addr, hook_add ⟨readMem target_addr, []⟩ f) :: s.chains⟩)
      | (.existing q, _) =>
        (TAI_SUCCESS_s,
         ⟨s.map,
          s.chains.map (fun c =>
            if c.1 = pid ∧ c.2.1 = q.addr then (c.1, c.2.1, hook_add c.2.2 f) else c)⟩)
      | (.patchExists, _) => (TAI_ERROR_PATCH_EXISTS_s, s)

/-- C5: a zero target address or a null replacement makes `hook_func_abs`
fail with `TAI_ERROR_INVALID_ARGS`, leaves the state unchanged, and never
yields success. -/
theorem hook_func_abs_invalid_args (s : TaiState) (pid target_addr : Nat)
    (repl : Option Func) (readMem : Nat → List Nat)
    (h : target_addr = 0 ∨ repl = none) :
    hook_func_abs s pid target_addr repl readMem = (TAI_ERROR_INVALID_ARGS_s, s)
    ∧ (hook_func_abs s pid target_addr repl readMem).1 ≠ TAI_SUCCESS_s := by
  have hres : hook_func_abs s pid target_addr repl readMem = (TAI_ERROR_INVALID_ARGS_s, s) := by
    cases repl with
    | none => rfl
    | some f =>
      rcases h with h0 | hn
      · simp [hook_func_abs, h0]
      · exact absurd hn (by simp)
  refine ⟨hres, ?_⟩
  rw [hres]
  show TAI_ERROR_INVALID_ARGS_s ≠ TAI_SUCCESS_s
  decide

/-- Witness for C5: both invalid argument shapes at a concrete state. -/
theorem hook_func_abs_invalid_args_witness :
    hook_func_abs ⟨[], []⟩ 1 0 (some 7) (fun _ => []) = (TAI_ERROR_INVALID_ARGS_s, ⟨[], []⟩)
    ∧ hook_func_abs ⟨[], []⟩ 1 0x1000 none (fun _ => []) = (TAI_ERROR_INVALID_ARGS_s, ⟨[], []⟩) :=
  ⟨(hook_func_abs_invalid_args ⟨[], []⟩ 1 0 (some 7) (fun _ => []) (Or.inl rfl)).1,
   (hook_func_abs_invalid_args ⟨[], []⟩ 1 0x1000 none (fun _ => []) (Or.inr rfl)).1⟩

/-! ## Module lookup helpers (src/module.c) -/

/-- `KERNEL_PID` of the platform headers: the distinguished process id of
the kernel. -/
def KERNEL_PID : Nat := 0x10005

/-- `DEFAULT_FW_VERSION` from `src/module.c`: fallback if the running
firmware version cannot be detected. -/
def DEFAULT_FW_VERSION : Nat := 0x3600000

/-- `sizeof(tai_module_info_t)`; the header defining the structure is not
in the source tree and the exact value is irrelevant to the claims, only
the comparison `taiinfo->size < sizeof(tai_module_info_t)` is. -/
def TAI_MODULE_INFO_SIZE : Nat := 0x40

/-- The raw `SceKernelModulemgr` record behind the `sceinfo` pointer of
`sce_to_tai_module_info`: its address and a 32-bit load at each byte
offset. -/
structure SceInfoSrc where
  base : Nat
  read : Nat → Nat

/-- The fields `sce_to_tai_module_info` writes into `tai_module_info_t`
(the name is represented by the address it points to). -/
structure TaiModuleInfoOut where
  modid : Nat
  module_nid : Nat
  nameAddr : Nat
  exports_start : Nat
  exports_end : Nat
  imports_start : Nat
  imports_end : Nat
deriving DecidableEq, Repr

/-- The firmware-version caching prologue of `sce_to_tai_module_info`
(src/module.c, lines 115-123): when the cached `fw_version` is zero, the
system software version is queried (`none` models `sceKernelGetSystemSwVersion`
failing, `some v` models success with `fwinfo[8] = v`) and the cache is set
from it, or to `DEFAULT_FW_VERSION` on failure; otherwise the cache is
left alone and no query runs. The second component reports whether the
query ran. -/
def fw_cache_update (fw : Nat) (query : Option Nat) : Nat × Bool :=
  if fw = 0 then
    match query with
    | none => (DEFAULT_FW_VERSION, true)
    | some v => (v, true)
  else (fw, false)

/-- `sce_to_tai_module_info` from `src/module.c` in state-passing form:
takes the cached `fw_version` and the system software version query
outcome, and returns the new cache, whether the query ran, the C `int`
status, and the converted module info on success. -/
def sce_to_tai_module_info (fw : Nat) (query : Option Nat) (pid taiinfo_size : Nat)
    (info : SceInfoSrc) : Nat × Bool × Int × Option TaiModuleInfoOut :=
  let u := fw_cache_update fw query
  let body : Int × Option TaiModuleInfoOut :=
    if taiinfo_size < TAI_MODULE_INFO_SIZE then (TAI_ERROR_SYSTEM_s, none)
    else if 0x3600000 ≤ u.1 then
      (TAI_SUCCESS_s, some
        { modid := if pid = KERNEL_PID then info.read 0xC else info.read 0x10
          module_nid := info.read 0x30
          nameAddr := info.read 0x1C
          exports_start := info.read 0x20
          exports_end := info.read 0x24
          imports_start := info.read 0x28
          imports_end := info.read 0x2C })
    else if 0x1692000 ≤ u.1 then
      (TAI_SUCCESS_s, some
        { modid := if pid = KERNEL_PID then info.read 0x0 else info.read 0x4
          module_nid := info.read 0x3C
          nameAddr := info.base + 0xC
          exports_start := info.read 0x2C
          exports_end := info.read 0x30
          imports_start := info.read 0x34
          imports_end := info.read 0x38 })
    else (TAI_ERROR_SYSTEM_s, none)
  (u.1, u.2, body.1, body.2)

/-- C9 counterexample: a system software version query that succeeds
reporting version 0 leaves the cache zero after the call — refuting
"after any call it is nonzero" — and the next call performs the query
again — refuting "every subsequent call uses the cached value without
recomputing it". -/
theorem fw_cache_zero_counterexample :
    (sce_to_tai_module_info 0 (some 0) KERNEL_PID 0x40 ⟨0, fun _ => 0⟩).1 = 0
    ∧ (sce_to_tai_module_info
        ((sce_to_tai_module_info 0 (some 0) KERNEL_PID 0x40 ⟨0, fun _ => 0⟩).1)
        (some 0) KERNEL_PID 0x40 ⟨0, fun _ => 0⟩).2.1 = true := by
  exact ⟨rfl, rfl⟩

/-- C9 (amended): the cached firmware version is recomputed only while it
is zero; on such a call the query runs and the cache is set from it, or to
`DEFAULT_FW_VERSION` (0x3600000) if it fails; the result is nonzero unless
a successful query reports version 0; and once the cache is nonzero, every
call keeps it unchanged without re-running the query. -/
theorem fw_cache_amended (fw : Nat) (query : Option Nat) (pid sz : Nat)
    (info : SceInfoSrc) :
    (fw ≠ 0 → (sce_to_tai_module_info fw query pid sz info).1 = fw
      ∧ (sce_to_tai_module_info fw query pid sz info).2.1 = false)
    ∧ (fw = 0 → (sce_to_tai_module_info fw query pid sz info).2.1 = true
      ∧ (sce_to_tai_module_info fw query pid sz info).1
          = (match query with | none => DEFAULT_FW_VERSION | some v => v))
    ∧ (fw = 0 → query = none →
        (sce_to_tai_module_info fw query pid sz info).1 = DEFAULT_FW_VERSION)
    ∧ ((fw ≠ 0 ∨ query = none ∨ (∃ v, query = some v ∧ v ≠ 0)) →
        (sce_to_tai_module_info fw query pid sz info).1 ≠ 0) := by
  have hfst : (sce_to_tai_module_info fw query pid sz info).1 = (fw_cache_update fw query).1 := rfl
  have hsnd : (sce_to_tai_module_info fw query pid sz info).2.1 = (fw_cache_update fw query).2 := rfl
  rw [hfst, hsnd] at *
  refine ⟨?_, ?_, ?_, ?_⟩
  · intro h
    simp [fw_cache_update, h]
  · intro h
    cases query with
    | none => simp [fw_cache_update, h]
    | some v => simp [fw_cache_update, h]
  · intro h hq
    simp [fw_cache_update, h, hq]
  · rintro (h | h | ⟨v, hv, hvne⟩)
    · unfold fw_cache_update
      rw [if_neg h]
      exact h
    · subst h
      by_cases hfw : fw = 0
      · unfold fw_cache_update
        rw [if_pos hfw]
        decide
      · unfold fw_cache_update
        rw [if_neg hfw]
        exact hfw
    · subst hv
      by_cases hfw : fw = 0
      · unfold fw_cache_update
        rw [if_pos hfw]
        exact hvne
      · unfold fw_cache_update
        rw [if_neg hfw]
        exact hfw

/-- Witness for the amended C9: a failed query on a cold cache yields the
fallback; a warm cache is served without re-querying. -/
theorem fw_cache_amended_witness :
    (sce_to_tai_module_info 0 none KERNEL_PID 0x40 ⟨0, fun _ => 0⟩).1 = DEFAULT_FW_VERSION
    ∧ (sce_to_tai_module_info 0x3700000 (some 5) KERNEL_PID 0x40 ⟨0, fun _ => 0⟩).2.1 = false :=
  ⟨(fw_cache_amended 0 none KERNEL_PID 0x40 ⟨0, fun _ => 0⟩).2.2.1 rfl rfl,
   ((fw_cache_amended 0x3700000 (some 5) KERNEL_PID 0x40 ⟨0, fun _ => 0⟩).1 (by decide)).2⟩

/-! ### module_get_by_name_nid (src/module.c, lines 221-255) -/

/-- The converted module data `module_get_by_name_nid` inspects per
module: the NUL-terminated module name (as its byte content), the `modid`
field (the module UID) and the `module_nid` field. -/
structure TaiInfoM where
  name : List Nat
  modid : Nat
  module_nid : Nat
deriving DecidableEq, Repr

/-- C `strncmp(a, b, n) == 0` on NUL-terminated strings given as their
byte content: compare at most `n` characters, stopping at a NUL. -/
def strncmp_eq : List Nat → List Nat → Nat → Bool
  | _, _, 0 => true
  | a, b, n + 1 =>
    if a.headD 0 ≠ b.headD 0 then false
    else if a.headD 0 = 0 then true
    else strncmp_eq a.tail b.tail n

/-- The per-module acceptance test of `module_get_by_name_nid`
(src/module.c, lines 243-251): with a non-null name, the first 27
characters must match and the nid must be 0 or equal the module's `modid`;
with a null name, the nid must equal the module's `modid`. -/
def moduleMatch (name : Option (List Nat)) (nid : Nat) (info : TaiInfoM) : Bool :=
  match name with
  | some nm => strncmp_eq nm info.name 27 && (nid == 0 || info.modid == nid)
  | none => info.modid == nid

/-- `module_get_by_name_nid` from `src/module.c`, over the module list the
kernel returned for the pid; a list element is `none` when
`sceKernelGetModuleInternal` or `sce_to_tai_module_info` failed for it and
the loop skips it. -/
def module_get_by_name_nid : List (Option TaiInfoM) → Option (List Nat) → Nat → Int
  | [], _, _ => TAI_ERROR_NOT_FOUND_s
  | none :: rest, name, nid => module_get_by_name_nid rest name nid
  | some info :: rest, name, nid =>
    if moduleMatch name nid info then TAI_SUCCESS_s
    else module_get_by_name_nid rest name nid

/-- C8: `module_get_by_name_nid` succeeds exactly when some module of the
pid's list passes the acceptance test (first 27 name characters plus
`nid = 0` or `modid = nid` for a non-null name; `modid = nid` for a null
name), returns `TAI_ERROR_NOT_FOUND` exactly when none does, and its
result never depends on any module's `module_nid` field — the nid is
compared against `modid`, the module UID. -/
theorem module_get_by_name_nid_spec (mods : List (Option TaiInfoM))
    (name : Option (List Nat)) (nid : Nat) :
    (module_get_by_name_nid mods name nid = TAI_SUCCESS_s
      ↔ ∃ info, some info ∈ mods ∧ moduleMatch name nid info = true)
    ∧ (module_get_by_name_nid mods name nid = TAI_ERROR_NOT_FOUND_s
      ↔ ∀ info, some info ∈ mods → moduleMatch name nid info = false)
    ∧ (∀ info nm, moduleMatch (some nm) nid info
        = (strncmp_eq nm info.name 27 && (nid == 0 || info.modid == nid)))
    ∧ (∀ info, moduleMatch none nid info = (info.modid == nid))
    ∧ (∀ f : TaiInfoM → Nat,
        module_get_by_name_nid (mods.map (Option.map (fun i => ⟨i.name, i.modid, f i⟩)))
          name nid
        = module_get_by_name_nid mods name nid) := by
  have hne : TAI_SUCCESS_s ≠ TAI_ERROR_NOT_FOUND_s := by decide
  refine ⟨?_, ?_, fun _ _ => rfl, fun _ => rfl, ?_⟩
  · induction mods with
    | nil =>
      constructor
      · intro h
        exact absurd h.symm hne
      · rintro ⟨i, hi, _⟩
        exact absurd hi (List.not_mem_nil _)
    | cons o rest ih =>
      cases o with
      | none =>
        rw [show module_get_by_name_nid (none :: rest) name nid
              = module_get_by_name_nid rest name nid from rfl, ih]
        constructor
        · rintro ⟨i, hi, hmi⟩
          exact ⟨i, List.mem_cons_of_mem _ hi, hmi⟩
        · rintro ⟨i, hi, hmi⟩
          rcases List.mem_cons.1 hi with heq | hmem
          · exact absurd heq (by simp)
          · exact ⟨i, hmem, hmi⟩
      | some info =>
        by_cases hm : moduleMatch name nid info = true
        · have hL : module_get_by_name_nid (some info :: rest) name nid = TAI_SUCCESS_s := by
            simp [module_get_by_name_nid, hm]
          rw [hL]
          constructor
          · intro _
            exact ⟨info, List.mem_cons_self _ _, hm⟩
          · intro _
            rfl
        · have hL : module_get_by_name_nid (some info :: rest) name nid
              = module_get_by_name_nid rest name nid := by
            simp [module_get_by_name_nid, hm]
          rw [hL, ih]
          constructor
          · rintro ⟨i, hi, hmi⟩
            exact ⟨i, List.mem_cons_of_mem _ hi, hmi⟩
          · rintro ⟨i, hi, hmi⟩
            rcases List.mem_cons.1 hi with heq | hmem
            · have hii : i = info := Option.some.inj heq
              rw [hii] at hmi
              exact absurd hmi hm
            · exact ⟨i, hmem, hmi⟩
  · induction mods with
    | nil =>
      constructor
      · intro _ i hi
        exact absurd hi (List.not_mem_nil _)
      · intro _
        rfl
    | cons o rest ih =>
      cases o with
      | none =>
        rw [show module_get_by_name_nid (none :: rest) name nid
              = module_get_by_name_nid rest name nid from rfl, ih]
        constructor
        · intro h i hi
          rcases List.mem_cons.1 hi with heq | hmem
          · exact absurd heq (by simp)
          · exact h i hmem
        · intro h i hi
          exact h i (List.mem_cons_of_mem _ hi)
      | some info =>
        by_cases hm : moduleMatch name nid info = true
        · have hL : module_get_by_name_nid (some info :: rest) name nid = TAI_SUCCESS_s := by
            simp [module_get_by_name_nid, hm]
          rw [hL]
          constructor
          · intro h
            exact absurd h hne
          · intro h
            have := h info (List.mem_cons_self _ _)
            rw [hm] at this
            exact absurd this (by decide)
        · have hL : module_get_by_name_nid (some info :: rest) name nid
              = module_get_by_name_nid rest name nid := by
            simp [module_get_by_name_nid, hm]
          rw [hL, ih]
          constructor
          · intro h i hi
            rcases List.mem_cons.1 hi with heq | hmem
            · have hii : i = info := Option.some.inj heq
              rw [hii]
              exact Bool.not_eq_true _ ▸ hm
            · exact h i hmem
          · intro h i hi
            exact h i (List.mem_cons_of_mem _ hi)
  · intro f
    induction mods with
    | nil => rfl
    | cons o rest ih =>
      cases o with
      | none => simpa [module_get_by_name_nid] using ih
      | some info =>
        have hmm : moduleMatch name nid ⟨info.name, info.modid, f info⟩
            = moduleMatch name nid info := by
          cases name <;> rfl
        simp only [List.map_cons, Option.map_some, module_get_by_name_nid, hmm]
        rw [ih]

/-- Witness for C8: a concrete module list resolved by pure nid lookup
(modid matches, module_nid different) and a name lookup. -/
theorem module_get_by_name_nid_spec_witness :
    module_get_by_name_nid [none, some ⟨[0x74, 0x61, 0x69], 0x123, 0xdead⟩] none 0x123
      = TAI_SUCCESS_s
    ∧ module_get_by_name_nid [some ⟨[0x74, 0x61, 0x69], 0x123, 0xdead⟩]
        (some [0x74, 0x61, 0x69]) 0 = TAI_SUCCESS_s :=
  ⟨(module_get_by_name_nid_spec [none, some ⟨[0x74, 0x61, 0x69], 0x123, 0xdead⟩]
      none 0x123).1.mpr ⟨⟨[0x74, 0x61, 0x69], 0x123, 0xdead⟩, by decide, by decide⟩,
   (module_get_by_name_nid_spec [some ⟨[0x74, 0x61, 0x69], 0x123, 0xdead⟩]
      (some [0x74, 0x61, 0x69]) 0).1.mpr ⟨⟨[0x74, 0x61, 0x69], 0x123, 0xdead⟩, by decide, by decide⟩⟩

/-! ### module_get_offset (src/module.c, lines 268-301) -/

/-- One entry of `SceKernelModuleInfo.segments`. -/
structure SegInfo where
  vaddr : Nat
  memsz : Nat
deriving DecidableEq, Repr

/-- The kernel services `module_get_offset` calls. `getModuleInfo` yields
the return status of `sceKernelGetModuleInfoForKernel` and the contents of
`sceinfo.segments` as a total function over the C array index: the C code
never validates a negative `segidx`, so `segments[segidx]` for a negative
index is an out-of-bounds read that yields whatever adjacent stack memory
holds, modelled by the function's value there. -/
structure ModOffsetEnv where
  kernelUidForUserUid : Nat → Int → Int
  getModuleInfo : Nat → Int → Int × (Int → SegInfo)

/-- `module_get_offset` from `src/module.c`: the C `int` status and the
value written to `*addr` (none if the function returns before the
write). -/
def module_get_offset (env : ModOffsetEnv) (pid : Nat) (modid : Int)
    (segidx : Int) (offset : Nat) : Int × Option Nat :=
  if 3 < segidx then (TAI_ERROR_INVALID_ARGS_s, none)
  else
    let modid2 := if pid ≠ KERNEL_PID then env.kernelUidForUserUid pid modid else modid
    if pid ≠ KERNEL_PID ∧ modid2 < 0 then (TAI_ERROR_NOT_FOUND_s, none)
    else
      let r := env.getModuleInfo pid modid2
      if r.1 < 0 then (r.1, none)
      else
        if (r.2 segidx).memsz < offset then (TAI_ERROR_INVALID_ARGS_s, none)
        else (TAI_SUCCESS_s, some ((r.2 segidx).vaddr + offset))

/-- C6 (code bug): evaluating `module_get_offset` at the invalid segment
index `-1` — outside the valid range 0..3 of the four-entry `segments`
array — with a successfully resolved module: the guard `segidx > 3` does
not catch negative indices, so instead of `TAI_ERROR_INVALID_ARGS` with no
write, the call reads `segments[-1]` out of bounds, returns `TAI_SUCCESS`
and writes the output address. The second call shows the in-range
validation the claim also describes: `offset` greater than the segment's
`memsz` does yield `TAI_ERROR_INVALID_ARGS` with no write. -/
theorem module_get_offset_negative_segidx :
    module_get_offset ⟨fun _ _ => 0, fun _ _ => (0, fun _ => ⟨0x8000, 0x1000⟩)⟩
        KERNEL_PID 1 (-1) 4
      = (TAI_SUCCESS_s, some 0x8004)
    ∧ TAI_SUCCESS_s ≠ TAI_ERROR_INVALID_ARGS_s
    ∧ module_get_offset ⟨fun _ _ => 0, fun _ _ => (0, fun _ => ⟨0x8000, 0x1000⟩)⟩
        KERNEL_PID 1 2 0x1001
      = (TAI_ERROR_INVALID_ARGS_s, none) := by
  refine ⟨rfl, by decide, rfl⟩

/-! ### find_int_for_user (src/module.c, lines 174-204) -/

/-- The scan loop of `find_int_for_user`: starting at byte offset `count`,
step 4-byte-aligned words until a word equals `needle` or `count` reaches
`size`. `mem` is the `ldrt` load of the 32-bit word at the given
address. -/
def find_int_loop (mem : Nat → Nat) (needle base size count : Nat) : Nat :=
  if h : count < size then
    if mem (base + count) = needle then count
    else find_int_loop mem needle base size (count + 4)
  else count
termination_by size - count
decreasing_by omega

/-- `find_int_for_user` from `src/module.c`: align `src + size` down and
`src` up to 4-byte boundaries, return 0 if the aligned range is empty,
otherwise scan it for `needle`. Addresses are 32-bit (`uintptr_t`), hence
the reductions modulo 2^32. -/
def find_int_for_user (mem : Nat → Nat) (src needle size : Nat) : Nat :=
  let e := (src + size) % 2 ^ 32 / 4 * 4
  let s := (src + 3) % 2 ^ 32 / 4 * 4
  if e ≤ s then 0
  else
    let sz := e - s
    let count := find_int_loop mem needle s sz 0
    if sz = 0 then 0 else count

theorem find_int_loop_spec (mem : Nat → Nat) (needle base : Nat) :
    ∀ n size count, size - count = n → count % 4 = 0 → size % 4 = 0 → count ≤ size →
      count ≤ find_int_loop mem needle base size count
      ∧ find_int_loop mem needle base size count ≤ size
      ∧ find_int_loop mem needle base size count % 4 = 0
      ∧ (find_int_loop mem needle base size count < size →
          mem (base + find_int_loop mem needle base size count) = needle)
      ∧ (∀ c, c % 4 = 0 → count ≤ c → c < find_int_loop mem needle base size count →
          mem (base + c) ≠ needle) := by
  intro n
  induction n using Nat.strong_induction_on with
  | _ n ih =>
    intro size count hn h4c h4s hle
    rw [find_int_loop]
    by_cases hlt : count < size
    · rw [dif_pos hlt]
      by_cases hhit : mem (base + count) = needle
      · rw [if_pos hhit]
        exact ⟨Nat.le_refl _, hle, h4c, fun _ => hhit,
          fun c _ hc1 hc2 => absurd (Nat.lt_of_le_of_lt hc1 hc2) (Nat.lt_irrefl count)⟩
      · rw [if_neg hhit]
        have hstep : count + 4 ≤ size := by omega
        have hrec := ih (size - (count + 4)) (by omega) size (count + 4) rfl (by omega) h4s hstep
        rw [find_int_loop] at hrec ⊢
        refine ⟨by omega, hrec.2.1, hrec.2.2.1, hrec.2.2.2.1, ?_⟩
        intro c hc4 hc1 hc2
        by_cases hcc : c < count + 4
        · have : c = count := by omega
          rw [this]
          exact hhit
        · exact hrec.2.2.2.2 c hc4 (by omega) hc2
    · rw [dif_neg hlt]
      exact ⟨Nat.le_refl _, hle, h4c, fun h => absurd h (by omega),
        fun c _ hc1 hc2 => absurd (Nat.lt_of_le_of_lt hc1 hc2) (Nat.lt_irrefl count)⟩

/-- C10: `find_int_for_user` examines only the 4-byte-aligned words inside
`[src, src + size)`: with `a` the aligned start and `e` the aligned end,
an empty aligned range returns 0; otherwise the result is a multiple of 4,
is the byte offset from `a` of the first aligned word equal to `needle`
(no earlier aligned word matches, and a result short of the full length is
a match), and equals the full aligned length `e - a` when the needle does
not occur; the result is 0 only for an empty range or a needle at the
first aligned word. -/
theorem find_int_for_user_spec (mem : Nat → Nat) (src needle size : Nat)
    (h3 : src + 3 < 2 ^ 32) (hsz : src + size < 2 ^ 32) :
    src ≤ (src + 3) / 4 * 4
    ∧ (src + 3) / 4 * 4 % 4 = 0
    ∧ (src + size) / 4 * 4 ≤ src + size
    ∧ ((src + size) / 4 * 4 ≤ (src + 3) / 4 * 4 →
        find_int_for_user mem src needle size = 0)
    ∧ ((src + 3) / 4 * 4 < (src + size) / 4 * 4 →
        find_int_for_user mem src needle size % 4 = 0
        ∧ find_int_for_user mem src needle size
            ≤ (src + size) / 4 * 4 - (src + 3) / 4 * 4
        ∧ (find_int_for_user mem src needle size
              < (src + size) / 4 * 4 - (src + 3) / 4 * 4 →
            mem ((src + 3) / 4 * 4 + find_int_for_user mem src needle size) = needle)
        ∧ (∀ c, c % 4 = 0 → c < find_int_for_user mem src needle size →
            mem ((src + 3) / 4 * 4 + c) ≠ needle)
        ∧ ((∀ c, c % 4 = 0 → c < (src + size) / 4 * 4 - (src + 3) / 4 * 4 →
              mem ((src + 3) / 4 * 4 + c) ≠ needle) →
            find_int_for_user mem src needle size
              = (src + size) / 4 * 4 - (src + 3) / 4 * 4))
    ∧ (find_int_for_user mem src needle size = 0 →
        (src + size) / 4 * 4 ≤ (src + 3) / 4 * 4
        ∨ mem ((src + 3) / 4 * 4) = needle) := by
  have hm1 : (src + 3) % 2 ^ 32 = src + 3 := Nat.mod_eq_of_lt h3
  have hm2 : (src + size) % 2 ^ 32 = src + size := Nat.mod_eq_of_lt hsz
  have hdef : find_int_for_user mem src needle size
      = if (src + size) / 4 * 4 ≤ (src + 3) / 4 * 4 then 0
        else if (src + size) / 4 * 4 - (src + 3) / 4 * 4 = 0 then 0
        else find_int_loop mem needle ((src + 3) / 4 * 4)
              ((src + size) / 4 * 4 - (src + 3) / 4 * 4) 0 := by
    unfold find_int_for_user
    rw [hm1, hm2]
  refine ⟨by omega, by omega, by omega, ?_, ?_, ?_⟩
  · intro hc
    rw [hdef, if_pos hc]
  · intro hc
    have h0 : (src + size) / 4 * 4 - (src + 3) / 4 * 4 ≠ 0 := by omega
    have hr : find_int_for_user mem src needle size
        = find_int_loop mem needle ((src + 3) / 4 * 4)
            ((src + size) / 4 * 4 - (src + 3) / 4 * 4) 0 := by
      rw [hdef, if_neg (by omega), if_neg h0]
    have hszmod : ((src + size) / 4 * 4 - (src + 3) / 4 * 4) % 4 = 0 := by omega
    obtain ⟨l1, l2, l3, l4, l5⟩ := find_int_loop_spec mem needle ((src + 3) / 4 * 4)
      ((src + size) / 4 * 4 - (src + 3) / 4 * 4)
      ((src + size) / 4 * 4 - (src + 3) / 4 * 4) 0 rfl (by omega) hszmod (by omega)
    rw [hr]
    refine ⟨l3, l2, l4, ?_, ?_⟩
    · intro c hc4 hclt
      exact l5 c hc4 (Nat.zero_le c) hclt
    · intro habs
      rcases Nat.lt_or_ge (find_int_loop mem needle ((src + 3) / 4 * 4)
          ((src + size) / 4 * 4 - (src + 3) / 4 * 4) 0)
          ((src + size) / 4 * 4 - (src + 3) / 4 * 4) with hlt | hge
      · exact absurd (l4 hlt) (habs _ l3 hlt)
      · omega
  · intro hz
    by_cases hc : (src + size) / 4 * 4 ≤ (src + 3) / 4 * 4
    · exact Or.inl hc
    · right
      have h0 : (src + size) / 4 * 4 - (src + 3) / 4 * 4 ≠ 0 := by omega
      have hr : find_int_for_user mem src needle size
          = find_int_loop mem needle ((src + 3) / 4 * 4)
              ((src + size) / 4 * 4 - (src + 3) / 4 * 4) 0 := by
        rw [hdef, if_neg hc, if_neg h0]
      have hszmod : ((src + size) / 4 * 4 - (src + 3) / 4 * 4) % 4 = 0 := by omega
      obtain ⟨l1, l2, l3, l4, l5⟩ := find_int_loop_spec mem needle ((src + 3) / 4 * 4)
        ((src + size) / 4 * 4 - (src + 3) / 4 * 4)
        ((src + size) / 4 * 4 - (src + 3) / 4 * 4) 0 rfl (by omega) hszmod (by omega)
      rw [hr] at hz
      have hm := l4 (by omega)
      rw [hz] at hm
      simpa using hm

/-- Witness for C10: a needle at the second aligned word of the scanned
range is reported at byte offset 4 from the aligned start. -/
theorem find_int_for_user_spec_witness :
    (10 : Nat) + 3 < 2 ^ 32
    ∧ find_int_for_user (fun x => if x = 16 then 0xdead else 0) 10 0xdead 30 % 4 = 0
    ∧ find_int_for_user (fun x => if x = 16 then 0xdead else 0) 10 0xdead 30 = 4 := by
  have h := find_int_for_user_spec (fun x => if x = 16 then 0xdead else 0) 10 0xdead 30
    (by decide) (by decide)
  refine ⟨by decide, (h.2.2.2.2.1 (by decide)).1, ?_⟩
  have h1 : find_int_loop (fun x => if x = 16 then 0xdead else 0) 0xdead 12 28 0 = 4 := by
    rw [find_int_loop]
    norm_num
    rw [find_int_loop]
    norm_num
  have h2 : find_int_for_user (fun x => if x = 16 then 0xdead else 0) 10 0xdead 30
      = find_int_loop (fun x => if x = 16 then 0xdead else 0) 0xdead 12 28 0 := by
    unfold find_int_for_user
    norm_num
  rw [h2, h1]

end TaiHEN
